import Mathlib

/-!
Shallow embedding of the `fortuner` program (src/lib.rs): path discovery
(`find_files`), corpus loading (`read_fortunes`), random selection
(`pick_fortune`) and the output-producing `run` function, together with
theorems about them.  Text is modelled as `List Char`; the filesystem is an
abstract structure `FS` supplying the primitives the Rust code calls
(`fs::metadata`, `Path::is_file`, `WalkDir`, `fs::read_to_string`).
-/

namespace Fortuner

/-- Text and paths are byte/char sequences. -/
abbrev Str := List Char

/-- Split a char sequence at every occurrence of a separator character
(embeds splitting a path string on the component separator). -/
def splitChar (sep : Char) : Str → List Str
  | [] => [[]]
  | c :: rest =>
    if c = sep then [] :: splitChar sep rest
    else
      match splitChar sep rest with
      | [] => [[c]]
      | s :: ss => (c :: s) :: ss

/-- Embedding of Rust `Path::file_name`: the last normal component of the
path (components are the `/`-separated pieces with empty and `.` pieces
dropped); `none` when there is no component or the last one is `..`. -/
def fileNameOf (p : Str) : Option Str :=
  match ((splitChar '/' p).filter (fun c => c ≠ [] ∧ c ≠ ['.'])).getLast? with
  | none => none
  | some c => if c = ['.', '.'] then none else some c

/-- Embedding of Rust `Path::extension`: the portion of the file name after
the final dot, `none` when there is no file name, no embedded dot, or the
only dot is the leading character. -/
def extensionOf (p : Str) : Option Str :=
  match fileNameOf p with
  | none => none
  | some [] => none
  | some (_ :: rest) =>
    if rest.contains '.' then some (rest.reverse.takeWhile (fun c => c ≠ '.')).reverse
    else none

/-- The reserved compiled-index extension `dat`. -/
def datExt : Str := ['d', 'a', 't']

/-- Embedding of `file.extension().map_or(true, |e| e != "dat")`. -/
def keepExt (p : Str) : Bool :=
  ((extensionOf p).map (fun e => decide (e ≠ datExt))).getD true

/-- Abstract filesystem: the primitives `find_files` and `read_fortunes`
call.  `metadata` models `fs::metadata` (succeeds or yields an error
message), `isFile` models `is_file`, `walk` models the `WalkDir` entry
stream (each entry either a path or a walk error), `readFile` models
`fs::read_to_string`. -/
structure FS where
  metadata : Str → Except Str Unit
  isFile : Str → Bool
  walk : Str → List (Except Str Str)
  readFile : Str → Except Str Str

/-- Embedding of `.into_iter().flatten()` on the walk stream: error entries
are silently dropped. -/
def walkOk (fs : FS) (p : Str) : List Str :=
  (fs.walk p).filterMap (fun e => match e with | .ok q => some q | .error _ => none)

/-- The `": "` separator used in error formatting. -/
def colonSpace : Str := [':', ' ']

/-- Files contributed by one input path: fail when `fs::metadata` fails
(error message `path ++ ": " ++ cause`); a regular file contributes itself
when its extension is not `dat`; otherwise the directory walk contributes
its file entries whose extension is not `dat`. -/
def collectOne (fs : FS) (path : Str) : Except Str (List Str) :=
  match fs.metadata path with
  | .error e => .error (path ++ colonSpace ++ e)
  | .ok _ =>
    if fs.isFile path then
      .ok (if keepExt path then [path] else [])
    else
      .ok (((walkOk fs path).filter fs.isFile).filter keepExt)

/-- Left-to-right accumulation over the input paths, stopping at the first
failing path, as in the `for path in paths` loop of `find_files`. -/
def collectFiles (fs : FS) : List Str → Except Str (List Str)
  | [] => .ok []
  | p :: ps =>
    match collectOne fs p with
    | .error e => .error e
    | .ok l =>
      match collectFiles fs ps with
      | .error e => .error e
      | .ok ls => .ok (l ++ ls)

/-- Model of `std::path::Component` on Unix: the root directory, a leading
`.`, a `..`, or a normal component. -/
inductive PathComp where
  | rootDir
  | curDir
  | parentDir
  | normal (s : Str)
deriving DecidableEq

/-- Interpret one non-empty path piece that is not a normalized-away `.`:
it is either `..` or a normal component. -/
def pieceComp (s : Str) : PathComp :=
  if s = ['.', '.'] then .parentDir else .normal s

/-- Embedding of `Path::components()` on Unix: a leading `/` becomes the
root component, the remaining pieces are the `/`-separated fragments with
empty pieces dropped and `.` pieces normalized away — except a `.` at the
very beginning of a relative path, which is kept as the current-directory
component. -/
def pathComponents (p : Str) : List PathComp :=
  match p with
  | '/' :: rest =>
    .rootDir ::
      (((splitChar '/' rest).filter (fun s => s ≠ [] ∧ s ≠ ['.'])).map pieceComp)
  | _ =>
    match (splitChar '/' p).filter (fun s => s ≠ []) with
    | [] => []
    | first :: others =>
      (if first = ['.'] then [PathComp.curDir] else [pieceComp first]) ++
      ((others.filter (fun s => s ≠ ['.'])).map pieceComp)

/-- Order-embedding of one component into a string key: the derived order
on `Component` puts the root directory first, then `.`, then `..`, then
normal components compared byte-wise. -/
def compKey : PathComp → Str
  | .rootDir => ['\x00']
  | .curDir => ['\x01']
  | .parentDir => ['\x02']
  | .normal s => '\x03' :: s

/-- Comparison key of a whole path: the keys of its components, compared
lexicographically.  Key order embeds `Ord for Path` (component-wise
comparison of the component sequences) and key equality embeds
`PartialEq for Path` (component-wise equality). -/
def pathKey (p : Str) : List Str := (pathComponents p).map compKey

/-- Boolean path comparison, the order `files.sort()` uses on
`Vec<PathBuf>`: `Ord for Path`, i.e. lexicographic comparison of the
component sequences. -/
def pathLe (a b : Str) : Bool := decide (pathKey a ≤ pathKey b)

/-- Tail worker of `Vec::dedup`: drop each element that compares equal to
the previously retained element, where paths compare equal when their
components do (`PartialEq for PathBuf`). -/
def dedupAdjTail (prev : Str) : List Str → List Str
  | [] => []
  | b :: rest =>
    if pathKey prev = pathKey b then dedupAdjTail prev rest
    else b :: dedupAdjTail b rest

/-- Embedding of `Vec::dedup` on `Vec<PathBuf>`: remove consecutive
duplicates under component-wise path equality, keeping the first element
of each run. -/
def dedupAdj : List Str → List Str
  | [] => []
  | a :: rest => a :: dedupAdjTail a rest

/-- Embedding of `find_files`: collect per-input results, then
`files.sort(); files.dedup()`. -/
def find_files (fs : FS) (paths : List Str) : Except Str (List Str) :=
  (collectFiles fs paths).map (fun l => dedupAdj (l.mergeSort pathLe))

/-- One fortune record: originating file base name and trimmed text. -/
structure Fortune where
  source : Str
  text : Str
deriving DecidableEq

/-- Embedding of Rust `char::is_whitespace` (the Unicode `White_Space`
property), the predicate `trim_end` strips. -/
def isWS (c : Char) : Bool :=
  (0x9 ≤ c.toNat && c.toNat ≤ 0xD) || c.toNat = 0x20 || c.toNat = 0x85 ||
  c.toNat = 0xA0 || c.toNat = 0x1680 ||
  (0x2000 ≤ c.toNat && c.toNat ≤ 0x200A) ||
  c.toNat = 0x2028 || c.toNat = 0x2029 || c.toNat = 0x202F ||
  c.toNat = 0x205F || c.toNat = 0x3000

/-- Embedding of Rust `str::trim_end`: drop trailing whitespace. -/
def trimEnd (s : Str) : Str := (s.reverse.dropWhile isWS).reverse

/-- Prepend a character to the first segment of a split result. -/
def consHead (c : Char) : List Str → List Str
  | [] => [[c]]
  | s :: ss => (c :: s) :: ss

/-- Embedding of `s.split("%\n")`: scan left to right, cut at every
non-overlapping occurrence of the two-character terminator, keeping empty
segments. -/
def splitDelim : Str → List Str
  | [] => [[]]
  | [c] => [[c]]
  | c :: d :: rest =>
    if c = '%' ∧ d = '\n' then [] :: splitDelim rest
    else consHead c (splitDelim (d :: rest))

/-- Absence of the two-character terminator `%\n` in a segment. -/
def noDelim : Str → Bool
  | [] => true
  | [_] => true
  | c :: d :: rest =>
    if c = '%' ∧ d = '\n' then false else noDelim (d :: rest)

/-- Records extracted from one file's content, as in the `Ok(s)` arm of
`read_fortunes`: split on `%\n`, trim each segment's end, drop empty
segments, tag with the source name. -/
def read_fortunes_content (source content : Str) : List Fortune :=
  ((((splitDelim content).map trimEnd).filter (fun s => !s.isEmpty)).map
    (fun t => { source := source, text := t } : Str → Fortune))

/-- Errors of corpus loading: a read failure, or the panic of
`path.file_name().unwrap()` on a path with no file-name component. -/
inductive LoadErr where
  | fsError (msg : Str)
  | panicNoFileName
deriving DecidableEq

/-- Embedding of `read_fortunes`: for each path take its base name
(`unwrap` modelled as the `panicNoFileName` error), read the file (failure
message `source ++ ": " ++ cause`), and append the parsed records. -/
def read_fortunes (fs : FS) : List Str → Except LoadErr (List Fortune)
  | [] => .ok []
  | p :: ps =>
    match fileNameOf p with
    | none => .error .panicNoFileName
    | some src =>
      match fs.readFile p with
      | .error e => .error (.fsError (src ++ colonSpace ++ e))
      | .ok content =>
        match read_fortunes fs ps with
        | .error e => .error e
        | .ok rest => .ok (read_fortunes_content src content ++ rest)

/-- Modelled from the spec: the deterministic pseudo-random output of the
external `rand` crate's `StdRng::seed_from_u64(seed)` (a ChaCha-based
generator, not part of this repository), abstracted as a fixed pure
function of the seed. -/
def stdRngVal (seed : Nat) : Nat := seed * 2654435761 + 1013904223

/-- Embedding of `SliceRandom::choose`: `none` on an empty slice, otherwise
the element at the generator's draw reduced into range (`gen_range(0..len)`
modelled as the raw draw modulo the length). -/
def choose (fortunes : List Fortune) (r : Nat) : Option Fortune :=
  if fortunes.isEmpty then none
  else fortunes.get? (r % fortunes.length)

/-- Embedding of `pick_fortune`: a seeded draw uses the deterministic
generator, an unseeded draw uses ambient entropy (`thread_rng`); the chosen
fortune's text is returned. -/
def pick_fortune (fortunes : List Fortune) (seed : Option Nat) (entropy : Nat) :
    Option Str :=
  (choose fortunes (match seed with | some s => stdRngVal s | none => entropy)).map
    Fortune.text

/-- Output channels of the process. -/
inductive Channel where
  | stdout
  | stderr
deriving DecidableEq

/-- One emitted chunk: its channel and its text (newlines inside). -/
structure OutLine where
  chan : Channel
  text : Str
deriving DecidableEq

/-- Text of the header chunk `eprintln!("({})\n%", source)`. -/
def headerOf (source : Str) : Str := ['('] ++ source ++ [')', '\n', '%']

/-- Text of the body chunk `println!("{}\n%", text)`. -/
def bodyOf (text : Str) : Str := text ++ ['\n', '%']

/-- Embedding of the search loop of `run`: `pre` is the mutable
`pre_source` slot (initially the empty string); a matching record emits a
header to stderr when `pre` differs from its source, then its body to
stdout, and updates `pre`; a non-matching record changes nothing. -/
def searchLoop (p : Str → Bool) : List Fortune → Str → List OutLine
  | [], _ => []
  | f :: rest, pre =>
    if p f.text then
      (if pre ≠ f.source then [{ chan := .stderr, text := headerOf f.source }] else []) ++
      { chan := .stdout, text := bodyOf f.text } :: searchLoop p rest f.source
    else searchLoop p rest pre

/-- The fixed empty-corpus message. -/
def noFortunesMsg : Str :=
  ['N', 'o', ' ', 'f', 'o', 'r', 't', 'u', 'n', 'e', 's', ' ', 'f', 'o', 'u', 'n', 'd']

/-- Embedding of the output-producing part of `run`, given the loaded
corpus: the empty corpus prints `No fortunes found` and returns; with a
pattern the search loop runs with an empty `pre_source`; otherwise the
picked fortune (if any) is printed. -/
def runOut (fortunes : List Fortune) (pattern : Option (Str → Bool))
    (seed : Option Nat) (entropy : Nat) : List OutLine :=
  if fortunes.isEmpty then [{ chan := .stdout, text := noFortunesMsg }]
  else
    match pattern with
    | some p => searchLoop p fortunes []
    | none =>
      match pick_fortune fortunes seed entropy with
      | some t => [{ chan := .stdout, text := t }]
      | none => []

/-- Specification-side searcher (for the refinement claim about header
emission): the previous-match source is an `Option`, `none` before the
first match; a header is emitted exactly when the current source differs
from the previous matching record's source (always at the first match). -/
def specSearch (p : Str → Bool) : List Fortune → Option Str → List OutLine
  | [], _ => []
  | f :: rest, prev =>
    if p f.text then
      (if prev = some f.source then []
       else [{ chan := .stderr, text := headerOf f.source }]) ++
      { chan := .stdout, text := bodyOf f.text } :: specSearch p rest (some f.source)
    else specSearch p rest prev

/-- A file body made of segments each terminated by the delimiter `%\n`
(the canonical fortune file layout). -/
def joinTerm (segs : List Str) : Str :=
  segs.foldr (fun s acc => s ++ '%' :: '\n' :: acc) []

/-- Concatenation of record texts with `\n%\n` delimiters after each, used
to state the splitting round-trip. -/
def joinRecords (texts : List Str) : Str :=
  texts.foldr (fun t acc => t ++ '\n' :: '%' :: '\n' :: acc) []

/-- Number of occurrences of the terminator `%\n` in a text. -/
def countDelim : Str → Nat
  | [] => 0
  | [_] => 0
  | c :: d :: rest =>
    if c = '%' ∧ d = '\n' then countDelim rest + 1 else countDelim (d :: rest)

/-- The same filesystem with every walk-error entry removed from the walk
streams, used to state that walk errors are silently skipped. -/
def stripWalkErrs (fs : FS) : FS :=
  { fs with
    walk := fun p =>
      (fs.walk p).filter (fun e => match e with | .ok _ => true | .error _ => false) }

/-- A path is reached by resolution from the given inputs when it is one of
the input paths and a regular file, or a file entry of the walk of an input
directory. -/
def reachedFile (fs : FS) (paths : List Str) (x : Str) : Prop :=
  ∃ q, q ∈ paths ∧
    ((fs.isFile q = true ∧ x = q) ∨
     (fs.isFile q = false ∧ x ∈ walkOk fs q ∧ fs.isFile x = true))

/-- A small concrete filesystem used to witness the resolution theorems:
`a` is a regular file with one fortune, `d` is a directory whose walk
yields itself, the file `d/f` and one walk error, and `m` fails the
metadata query. -/
def fsEx : FS where
  metadata := fun p => if p = ['m'] then .error ['n', 'o'] else .ok ()
  isFile := fun p => decide (p = ['a'] ∨ p = ['d', '/', 'f'])
  walk := fun p =>
    if p = ['d'] then [.ok ['d'], .ok ['d', '/', 'f'], .error ['w']] else []
  readFile := fun p =>
    if p = ['a'] then .ok ['h', 'i', '\n', '%', '\n'] else .error ['e']

/-! Helper lemmas about splitting and trimming. -/

theorem splitDelim_eqn (c d : Char) (rest : Str) :
    splitDelim (c :: d :: rest) =
      if c = '%' ∧ d = '\n' then [] :: splitDelim rest
      else consHead c (splitDelim (d :: rest)) := rfl

theorem noDelim_eqn (c d : Char) (rest : Str) :
    noDelim (c :: d :: rest) =
      if c = '%' ∧ d = '\n' then false else noDelim (d :: rest) := rfl

theorem countDelim_eqn (c d : Char) (rest : Str) :
    countDelim (c :: d :: rest) =
      if c = '%' ∧ d = '\n' then countDelim rest + 1 else countDelim (d :: rest) := rfl

theorem consHead_ne_nil (c : Char) (ls : List Str) : consHead c ls ≠ [] := by
  cases ls <;> simp [consHead]

theorem splitDelim_ne_nil (l : Str) : splitDelim l ≠ [] := by
  match l with
  | [] => simp [splitDelim]
  | [c] => simp [splitDelim]
  | c :: d :: rest =>
    rw [splitDelim_eqn]
    split
    · simp
    · exact consHead_ne_nil _ _

theorem splitDelim_head_shape (l : Str) :
    ∃ t ts, splitDelim l = t :: ts ∧ (t = [] ∨ t.head? = l.head?) := by
  match l with
  | [] => exact ⟨[], [], rfl, .inl rfl⟩
  | [c] => exact ⟨[c], [], rfl, .inr rfl⟩
  | c :: d :: rest =>
    rw [splitDelim_eqn]
    split
    · exact ⟨[], splitDelim rest, rfl, .inl rfl⟩
    · match h : splitDelim (d :: rest) with
      | [] => exact absurd h (splitDelim_ne_nil _)
      | s :: ss => exact ⟨c :: s, ss, by simp [consHead], .inr rfl⟩

theorem splitDelim_append_delim (seg rest : Str) (h : noDelim seg = true) :
    splitDelim (seg ++ '%' :: '\n' :: rest) = seg :: splitDelim rest := by
  induction seg with
  | nil =>
    rw [List.nil_append, splitDelim_eqn, if_pos ⟨rfl, rfl⟩]
  | cons c seg' ih =>
    cases seg' with
    | nil =>
      rw [List.cons_append, List.nil_append, splitDelim_eqn,
        if_neg (by simp : ¬(c = '%' ∧ ('%' : Char) = '\n')),
        splitDelim_eqn, if_pos ⟨rfl, rfl⟩]
      rfl
    | cons d s2 =>
      have hnd : ¬(c = '%' ∧ d = '\n') := by
        intro hc
        rw [noDelim_eqn, if_pos hc] at h
        exact Bool.false_ne_true h
      have h2 : noDelim (d :: s2) = true := by
        rwa [noDelim_eqn, if_neg hnd] at h
      simp only [List.cons_append] at ih ⊢
      rw [splitDelim_eqn, if_neg hnd, ih h2]
      rfl

theorem countDelim_append_delim (seg rest : Str) (h : noDelim seg = true) :
    countDelim (seg ++ '%' :: '\n' :: rest) = countDelim rest + 1 := by
  induction seg with
  | nil => rw [List.nil_append, countDelim_eqn, if_pos ⟨rfl, rfl⟩]
  | cons c seg' ih =>
    cases seg' with
    | nil =>
      rw [List.cons_append, List.nil_append, countDelim_eqn,
        if_neg (by simp : ¬(c = '%' ∧ ('%' : Char) = '\n')),
        countDelim_eqn, if_pos ⟨rfl, rfl⟩]
    | cons d s2 =>
      have hnd : ¬(c = '%' ∧ d = '\n') := by
        intro hc
        rw [noDelim_eqn, if_pos hc] at h
        exact Bool.false_ne_true h
      have h2 : noDelim (d :: s2) = true := by
        rwa [noDelim_eqn, if_neg hnd] at h
      simp only [List.cons_append] at ih ⊢
      rw [countDelim_eqn, if_neg hnd]
      exact ih h2

theorem noDelim_of_mem_splitDelim (l : Str) :
    ∀ s ∈ splitDelim l, noDelim s = true := by
  induction l using splitDelim.induct with
  | case1 =>
    intro s hs
    simp only [splitDelim, List.mem_singleton] at hs
    simp [hs, noDelim]
  | case2 c =>
    intro s hs
    simp only [splitDelim, List.mem_singleton] at hs
    simp [hs, noDelim]
  | case3 c d rest hcd ih =>
    intro s hs
    rw [splitDelim_eqn, if_pos hcd] at hs
    rcases List.mem_cons.mp hs with h | h
    · simp [h, noDelim]
    · exact ih s h
  | case4 c d rest hcd ih =>
    intro s hs
    rw [splitDelim_eqn, if_neg hcd] at hs
    obtain ⟨t, ts, heq, hh⟩ := splitDelim_head_shape (d :: rest)
    rw [heq] at hs
    simp only [consHead] at hs
    rcases List.mem_cons.mp hs with h | h
    · subst h
      rcases hh with ht | ht
      · simp [ht, noDelim]
      · cases t with
        | nil => simp [noDelim]
        | cons t0 t' =>
          have hd : t0 = d := by
            simp only [List.head?] at ht
            exact Option.some.inj ht
          subst hd
          have : noDelim (t0 :: t') = true := ih _ (heq ▸ List.mem_cons_self _ _)
          rw [noDelim_eqn, if_neg hcd]
          exact this
    · exact ih s (heq ▸ List.mem_cons_of_mem _ h)

theorem dropWhile_idem (p : Char → Bool) (l : Str) :
    List.dropWhile p (List.dropWhile p l) = List.dropWhile p l := by
  induction l with
  | nil => rfl
  | cons c l' ih =>
    by_cases h : p c
    · rw [List.dropWhile_cons_of_pos h]
      exact ih
    · rw [List.dropWhile_cons_of_neg h, List.dropWhile_cons_of_neg h]

theorem trimEnd_idem (s : Str) : trimEnd (trimEnd s) = trimEnd s := by
  unfold trimEnd
  rw [List.reverse_reverse, dropWhile_idem]

theorem trimEnd_append_newline (t : Str) : trimEnd (t ++ ['\n']) = trimEnd t := by
  unfold trimEnd
  rw [List.reverse_append]
  have : (['\n'] : Str).reverse = ['\n'] := rfl
  rw [this, List.cons_append, List.nil_append,
    List.dropWhile_cons_of_pos (by decide : isWS '\n' = true)]

theorem exists_trimEnd_append (s : Str) : ∃ w, s = trimEnd s ++ w := by
  refine ⟨(s.reverse.takeWhile isWS).reverse, ?_⟩
  unfold trimEnd
  rw [← List.reverse_append, List.takeWhile_append_dropWhile, List.reverse_reverse]

theorem noDelim_of_append_left (l r : Str) (h : noDelim (l ++ r) = true) :
    noDelim l = true := by
  induction l with
  | nil => rfl
  | cons c l' ih =>
    cases l' with
    | nil => rfl
    | cons d s2 =>
      simp only [List.cons_append] at h ih
      have hnd : ¬(c = '%' ∧ d = '\n') := by
        intro hc
        rw [noDelim_eqn, if_pos hc] at h
        exact Bool.false_ne_true h
      rw [noDelim_eqn, if_neg hnd] at h ⊢
      exact ih h

theorem splitDelim_joinTerm (segs : List Str) (h : ∀ s ∈ segs, noDelim s = true) :
    splitDelim (joinTerm segs) = segs ++ [[]] := by
  induction segs with
  | nil => rfl
  | cons s segs' ih =>
    have hj : joinTerm (s :: segs') = s ++ '%' :: '\n' :: joinTerm segs' := rfl
    rw [hj, splitDelim_append_delim _ _ (h s (List.mem_cons_self s segs')),
      ih (fun t ht => h t (List.mem_cons_of_mem s ht))]
    rfl

theorem countDelim_joinTerm (segs : List Str) (h : ∀ s ∈ segs, noDelim s = true) :
    countDelim (joinTerm segs) = segs.length := by
  induction segs with
  | nil => rfl
  | cons s segs' ih =>
    have hj : joinTerm (s :: segs') = s ++ '%' :: '\n' :: joinTerm segs' := rfl
    rw [hj, countDelim_append_delim _ _ (h s (List.mem_cons_self s segs')),
      ih (fun t ht => h t (List.mem_cons_of_mem s ht))]
    rfl

theorem read_fortunes_content_joinTerm (src : Str) (segs : List Str)
    (h : ∀ s ∈ segs, noDelim s = true ∧ trimEnd s ≠ []) :
    read_fortunes_content src (joinTerm segs) =
      segs.map (fun s => { source := src, text := trimEnd s }) := by
  unfold read_fortunes_content
  rw [splitDelim_joinTerm segs (fun s hs => (h s hs).1), List.map_append,
    List.filter_append]
  have h1 : (segs.map trimEnd).filter (fun s => !s.isEmpty) = segs.map trimEnd := by
    rw [List.filter_eq_self]
    intro a ha
    obtain ⟨s, hs, rfl⟩ := List.mem_map.mp ha
    simpa [List.isEmpty_iff] using (h s hs).2
  have h2 : List.filter (fun s => !List.isEmpty s) (List.map trimEnd [[]]) = [] := rfl
  rw [h1, h2, List.append_nil, List.map_map]
  rfl

theorem joinRecords_trimEnd (segs : List Str)
    (h : ∀ s ∈ segs, ∃ t, s = t ++ ['\n'] ∧ trimEnd t = t) :
    joinRecords (segs.map trimEnd) = joinTerm segs := by
  induction segs with
  | nil => rfl
  | cons s segs' ih =>
    obtain ⟨t, rfl, htrim⟩ := h s (List.mem_cons_self s segs')
    have hj : joinRecords (List.map trimEnd ((t ++ ['\n']) :: segs')) =
        trimEnd (t ++ ['\n']) ++ '\n' :: '%' :: '\n' :: joinRecords (segs'.map trimEnd) := rfl
    rw [hj, trimEnd_append_newline, htrim,
      ih (fun u hu => h u (List.mem_cons_of_mem _ hu))]
    have hk : joinTerm ((t ++ ['\n']) :: segs') =
        (t ++ ['\n']) ++ '%' :: '\n' :: joinTerm segs' := rfl
    rw [hk, List.append_assoc]
    rfl

/-! Claim theorems about corpus parsing. -/

/-- Claim C2: corpus loading splits the content at each occurrence of the
terminator `%\n`, trims trailing whitespace from each segment and drops
empty segments; a file built of N delimiter-terminated segments (each
delimiter-free and non-empty after trimming) contains exactly N occurrences
of the terminator and yields exactly N records, the records being the
trimmed segments in order — in particular the trailing `%` line at
end-of-file produces no extra empty record — and when each segment is a
newline-terminated body with no trailing whitespace, concatenating the
record texts with `\n%\n` delimiters reconstructs the original content. -/
theorem read_fortunes_splitting_round_trip (src : Str) (segs : List Str)
    (h : ∀ s ∈ segs, noDelim s = true ∧ trimEnd s ≠ []) :
    read_fortunes_content src (joinTerm segs) =
      segs.map (fun s => { source := src, text := trimEnd s }) ∧
    (read_fortunes_content src (joinTerm segs)).length = segs.length ∧
    countDelim (joinTerm segs) = segs.length ∧
    ((∀ s ∈ segs, ∃ t, s = t ++ ['\n'] ∧ trimEnd t = t) →
      joinRecords (List.map Fortune.text (read_fortunes_content src (joinTerm segs))) =
        joinTerm segs) := by
  have hrec := read_fortunes_content_joinTerm src segs h
  refine ⟨hrec, ?_, countDelim_joinTerm segs (fun s hs => (h s hs).1), ?_⟩
  · rw [hrec, List.length_map]
  · intro hterm
    rw [hrec, List.map_map]
    have hc : (Fortune.text ∘ fun s => ({ source := src, text := trimEnd s } : Fortune)) =
        trimEnd := rfl
    rw [hc, joinRecords_trimEnd segs hterm]

theorem read_fortunes_splitting_round_trip_witness :
    (∀ s ∈ [['h', 'i', '\n'], ['y', 'o', '\n']], noDelim s = true ∧ trimEnd s ≠ []) ∧
    (read_fortunes_content ['j'] (joinTerm [['h', 'i', '\n'], ['y', 'o', '\n']])).length = 2 := by
  have h : ∀ s ∈ [['h', 'i', '\n'], ['y', 'o', '\n']], noDelim s = true ∧ trimEnd s ≠ [] := by
    decide
  exact ⟨h, (read_fortunes_splitting_round_trip ['j'] _ h).2.1⟩

/-- Claim C9, amended: every record text produced by corpus loading is
non-empty, fixed under `trim_end` (so it has no trailing whitespace and no
trailing blank lines), and contains no occurrence of the terminator `%\n`;
the original claim's further parts — no leading blank lines, no standalone
`%` line anywhere — are refuted by the counterexample theorem. -/
theorem read_fortunes_text_invariant (src content : Str) :
    ∀ f ∈ read_fortunes_content src content,
      f.text ≠ [] ∧ trimEnd f.text = f.text ∧ noDelim f.text = true := by
  intro f hf
  unfold read_fortunes_content at hf
  obtain ⟨t, ht, rfl⟩ := List.mem_map.mp hf
  obtain ⟨htm, htne⟩ := List.mem_filter.mp ht
  obtain ⟨s, hs, rfl⟩ := List.mem_map.mp htm
  refine ⟨?_, trimEnd_idem s, ?_⟩
  · simpa [List.isEmpty_iff] using htne
  · obtain ⟨w, hw⟩ := exists_trimEnd_append s
    have hnd := noDelim_of_mem_splitDelim content s hs
    exact noDelim_of_append_left _ _ (by rw [← hw]; exact hnd)

theorem read_fortunes_text_invariant_witness :
    ({ source := ['j'], text := ['h', 'i'] } : Fortune) ∈
      read_fortunes_content ['j'] ['h', 'i', '\n', '%', '\n'] ∧
    (['h', 'i'] : Str) ≠ [] := by
  have hm : ({ source := ['j'], text := ['h', 'i'] } : Fortune) ∈
      read_fortunes_content ['j'] ['h', 'i', '\n', '%', '\n'] := by decide
  exact ⟨hm, (read_fortunes_text_invariant ['j'] _ _ hm).1⟩

/-- Claim C9 counterexample: the loader trims only segment ends, so the file body
`\n\na\n%\n` yields the single record text `\n\na`, which begins with two
blank lines; and the body `a\n%%\n` yields the single record text `a\n%`,
whose final line is exactly the standalone delimiter `%`. -/
theorem read_fortunes_text_leading_blank_and_delimiter_line :
    read_fortunes_content ['j'] ['\n', '\n', 'a', '\n', '%', '\n'] =
      [{ source := ['j'], text := ['\n', '\n', 'a'] }] ∧
    read_fortunes_content ['j'] ['a', '\n', '%', '%', '\n'] =
      [{ source := ['j'], text := ['a', '\n', '%'] }] := by
  exact ⟨rfl, rfl⟩

/-! Helper lemmas about the search loop and the selector. -/

theorem searchLoop_mem_shape (p : Str → Bool) :
    ∀ (fortunes : List Fortune) (pre : Str) (l : OutLine), l ∈ searchLoop p fortunes pre →
      (l.chan = .stderr ∧ ∃ f, f ∈ fortunes ∧ p f.text = true ∧ l.text = headerOf f.source) ∨
      (l.chan = .stdout ∧ ∃ f, f ∈ fortunes ∧ p f.text = true ∧ l.text = bodyOf f.text) := by
  intro fortunes
  induction fortunes with
  | nil => intro pre l hl; simp [searchLoop] at hl
  | cons f rest ih =>
    intro pre l hl
    unfold searchLoop at hl
    by_cases hp : p f.text
    · rw [if_pos hp] at hl
      rcases List.mem_append.mp hl with h1 | h1
      · have hl2 : l = { chan := .stderr, text := headerOf f.source } := by
          by_cases he : pre ≠ f.source
          · rw [if_pos he] at h1
            exact List.mem_singleton.mp h1
          · rw [if_neg he] at h1
            cases h1
        exact .inl ⟨by rw [hl2], f, List.mem_cons_self f rest, hp, by rw [hl2]⟩
      · rcases List.mem_cons.mp h1 with h2 | h2
        · exact .inr ⟨by rw [h2], f, List.mem_cons_self f rest, hp, by rw [h2]⟩
        · rcases ih f.source l h2 with ⟨hc, g, hg, hpg, ht⟩ | ⟨hc, g, hg, hpg, ht⟩
          · exact .inl ⟨hc, g, List.mem_cons_of_mem f hg, hpg, ht⟩
          · exact .inr ⟨hc, g, List.mem_cons_of_mem f hg, hpg, ht⟩
    · rw [if_neg hp] at hl
      rcases ih pre l hl with ⟨hc, g, hg, hpg, ht⟩ | ⟨hc, g, hg, hpg, ht⟩
      · exact .inl ⟨hc, g, List.mem_cons_of_mem f hg, hpg, ht⟩
      · exact .inr ⟨hc, g, List.mem_cons_of_mem f hg, hpg, ht⟩

theorem searchLoop_body_mem (p : Str → Bool) :
    ∀ (fortunes : List Fortune) (pre : Str) (f : Fortune), f ∈ fortunes → p f.text = true →
      ({ chan := .stdout, text := bodyOf f.text } : OutLine) ∈ searchLoop p fortunes pre := by
  intro fortunes
  induction fortunes with
  | nil => intro pre f hf; cases hf
  | cons g rest ih =>
    intro pre f hf hp
    unfold searchLoop
    rcases List.mem_cons.mp hf with h1 | h1
    · subst h1
      rw [if_pos hp]
      exact List.mem_append.mpr (.inr (List.mem_cons_self _ _))
    · by_cases hg : p g.text
      · rw [if_pos hg]
        exact List.mem_append.mpr (.inr (List.mem_cons_of_mem _ (ih g.source f h1 hp)))
      · rw [if_neg hg]
        exact ih pre f h1 hp

theorem searchLoop_all_unmatched (p : Str → Bool) :
    ∀ (fortunes : List Fortune) (pre : Str), (∀ f ∈ fortunes, p f.text = false) →
      searchLoop p fortunes pre = [] := by
  intro fortunes
  induction fortunes with
  | nil => intro pre _; rfl
  | cons f rest ih =>
    intro pre h
    unfold searchLoop
    rw [if_neg (by simp [h f (List.mem_cons_self f rest)])]
    exact ih pre (fun g hg => h g (List.mem_cons_of_mem f hg))

theorem searchLoop_eq_specSearch_some (p : Str → Bool) :
    ∀ (fortunes : List Fortune) (pre : Str),
      searchLoop p fortunes pre = specSearch p fortunes (some pre) := by
  intro fortunes
  induction fortunes with
  | nil => intro pre; rfl
  | cons f rest ih =>
    intro pre
    unfold searchLoop specSearch
    by_cases hp : p f.text
    · rw [if_pos hp, if_pos hp, ih]
      by_cases he : pre = f.source
      · simp [he]
      · simp [he]
    · rw [if_neg hp, if_neg hp, ih]

theorem headerOf_getLast (s : Str) : (headerOf s).getLast? = some '%' := by
  unfold headerOf
  rw [show ['('] ++ s ++ [')', '\n', '%'] = (['('] ++ s ++ [')', '\n']) ++ ['%'] by
    simp [List.append_assoc]]
  exact List.getLast?_concat _

theorem bodyOf_getLast (t : Str) : (bodyOf t).getLast? = some '%' := by
  unfold bodyOf
  rw [show t ++ ['\n', '%'] = (t ++ ['\n']) ++ ['%'] by simp [List.append_assoc]]
  exact List.getLast?_concat _

theorem choose_eq_none_iff (fortunes : List Fortune) (r : Nat) :
    choose fortunes r = none ↔ fortunes = [] := by
  unfold choose
  cases fortunes with
  | nil => simp
  | cons f rest =>
    rw [if_neg (by simp)]
    constructor
    · intro h
      have hle := List.get?_eq_none.mp h
      have hlt : r % (f :: rest).length < (f :: rest).length :=
        Nat.mod_lt _ (by simp)
      omega
    · intro h; cases h

/-! Claim theorems about searching, selection and output. -/

/-- Claim C1: in search mode, with the (always non-empty) sources produced by
loading, the emitted stream with the empty-string initial `pre_source`
coincides with the specification searcher whose previous-match slot is an
`Option`: a header appears before a matching record exactly when its source
differs from the immediately preceding matching record's source (always at
the first match); non-matching records leave the slot untouched; and for
three matching records from sources a, b, a, exactly three headers are
emitted, (a) then (b) then (a) again. -/
theorem search_header_most_recent_source (p : Str → Bool) (fortunes : List Fortune)
    (h : ∀ f ∈ fortunes, f.source ≠ []) :
    searchLoop p fortunes [] = specSearch p fortunes none ∧
    (∀ (f : Fortune) (rest : List Fortune) (pre : Str), p f.text = false →
      searchLoop p (f :: rest) pre = searchLoop p rest pre) ∧
    searchLoop (fun _ => true)
      [{ source := ['a'], text := ['x'] }, { source := ['b'], text := ['y'] },
       { source := ['a'], text := ['z'] }] [] =
      [{ chan := .stderr, text := headerOf ['a'] }, { chan := .stdout, text := bodyOf ['x'] },
       { chan := .stderr, text := headerOf ['b'] }, { chan := .stdout, text := bodyOf ['y'] },
       { chan := .stderr, text := headerOf ['a'] }, { chan := .stdout, text := bodyOf ['z'] }] := by
  refine ⟨?_, ?_, ?_⟩
  · induction fortunes with
    | nil => rfl
    | cons f rest ih =>
      unfold searchLoop specSearch
      by_cases hp : p f.text
      · rw [if_pos hp, if_pos hp, searchLoop_eq_specSearch_some,
          if_pos (Ne.symm (h f (List.mem_cons_self f rest))), if_neg (by simp)]
      · rw [if_neg hp, if_neg hp]
        exact ih (fun g hg => h g (List.mem_cons_of_mem f hg))
  · intro f rest pre hp
    have he : searchLoop p (f :: rest) pre =
        if p f.text then
          (if pre ≠ f.source then [{ chan := .stderr, text := headerOf f.source }] else []) ++
          { chan := .stdout, text := bodyOf f.text } :: searchLoop p rest f.source
        else searchLoop p rest pre := rfl
    rw [he, if_neg (by simp [hp])]
  · rfl

theorem search_header_most_recent_source_witness :
    (∀ f ∈ [({ source := ['a'], text := ['x'] } : Fortune)], f.source ≠ []) ∧
    searchLoop (fun _ => true) [{ source := ['a'], text := ['x'] }] [] =
      specSearch (fun _ => true) [{ source := ['a'], text := ['x'] }] none := by
  have h : ∀ f ∈ [({ source := ['a'], text := ['x'] } : Fortune)], f.source ≠ [] := by decide
  exact ⟨h, (search_header_most_recent_source (fun _ => true) _ h).1⟩

/-- Claim C8: every chunk emitted by search mode is either a source-group header
written to the diagnostic (stderr) stream or a matching record's body
(text plus a `%` line) written to the standard output stream — the two
kinds never share a channel — and every matching record's body does appear
on the standard output stream. -/
theorem search_output_channels (p : Str → Bool) (fortunes : List Fortune) (pre : Str) :
    (∀ l ∈ searchLoop p fortunes pre,
      (l.chan = .stderr ∧ ∃ f, f ∈ fortunes ∧ p f.text = true ∧ l.text = headerOf f.source) ∨
      (l.chan = .stdout ∧ ∃ f, f ∈ fortunes ∧ p f.text = true ∧ l.text = bodyOf f.text)) ∧
    (∀ f ∈ fortunes, p f.text = true →
      ({ chan := .stdout, text := bodyOf f.text } : OutLine) ∈ searchLoop p fortunes pre) :=
  ⟨fun l hl => searchLoop_mem_shape p fortunes pre l hl,
   fun f hf hp => searchLoop_body_mem p fortunes pre f hf hp⟩

theorem search_output_channels_witness :
    ({ source := ['a'], text := ['x'] } : Fortune) ∈
      [({ source := ['a'], text := ['x'] } : Fortune)] ∧
    ({ chan := .stdout, text := bodyOf ['x'] } : OutLine) ∈
      searchLoop (fun _ => true) [{ source := ['a'], text := ['x'] }] [] := by
  refine ⟨List.mem_cons_self _ _, ?_⟩
  exact (search_output_channels (fun _ => true) [{ source := ['a'], text := ['x'] }] []).2
    _ (List.mem_cons_self _ _) rfl

/-- Claim C3 counterexample: with a pattern supplied and an empty corpus (so zero
records of the corpus match), the program does not stay silent: the
emptiness check in `run` precedes the pattern branch, so the fixed
`No fortunes found` line is printed in pattern mode as well. -/
theorem run_pattern_mode_empty_corpus_prints_message :
    runOut [] (some (fun _ => true)) none 0 =
      [{ chan := .stdout, text := noFortunesMsg }] ∧
    runOut [] (some (fun _ => true)) none 0 ≠ [] := by
  refine ⟨rfl, ?_⟩
  intro h
  cases h

/-- Claim C3, amended: when a pattern is supplied and the corpus is non-empty
and zero records match, the program produces no output at all; the fixed
`No fortunes found` message appears in pattern-mode output exactly when
the corpus is empty (not never, as originally claimed: the emptiness check
precedes the pattern branch). -/
theorem run_no_match_no_output (fortunes : List Fortune) (p : Str → Bool)
    (seed : Option Nat) (entropy : Nat) :
    (fortunes ≠ [] → (∀ f ∈ fortunes, p f.text = false) →
      runOut fortunes (some p) seed entropy = []) ∧
    (({ chan := .stdout, text := noFortunesMsg } : OutLine) ∈
        runOut fortunes (some p) seed entropy ↔ fortunes = []) := by
  constructor
  · intro hne hall
    unfold runOut
    rw [if_neg (by simpa [List.isEmpty_iff] using hne)]
    exact searchLoop_all_unmatched p fortunes [] hall
  · constructor
    · intro hm
      by_contra hne
      unfold runOut at hm
      rw [if_neg (by simpa [List.isEmpty_iff] using hne)] at hm
      rcases searchLoop_mem_shape p fortunes [] _ hm with ⟨hc, _, _, _, ht⟩ | ⟨_, _, _, _, ht⟩
      · cases hc
      · have h1 : noFortunesMsg.getLast? = some '%' := by
          rw [show ({ chan := Channel.stdout, text := noFortunesMsg } : OutLine).text =
            noFortunesMsg from rfl] at ht
          rw [ht]; exact bodyOf_getLast _
        cases h1
    · intro h
      subst h
      simp [runOut]

theorem run_no_match_no_output_witness :
    ([({ source := ['a'], text := ['x'] } : Fortune)] ≠ []) ∧
    (∀ f ∈ [({ source := ['a'], text := ['x'] } : Fortune)],
      (fun _ : Str => false) f.text = false) ∧
    runOut [{ source := ['a'], text := ['x'] }] (some (fun _ => false)) none 0 = [] := by
  refine ⟨by simp, by simp, ?_⟩
  exact (run_no_match_no_output [{ source := ['a'], text := ['x'] }]
    (fun _ => false) none 0).1 (by simp) (by simp)

/-- Claim C4: the selector returns no value exactly when the corpus is empty,
and a seeded draw is a deterministic function of the corpus and the seed:
its result does not depend on the ambient entropy that only the unseeded
(`thread_rng`) path consumes. -/
theorem pick_fortune_none_iff_empty_and_seeded_deterministic
    (fortunes : List Fortune) (seed : Option Nat) (entropy : Nat) :
    (pick_fortune fortunes seed entropy = none ↔ fortunes = []) ∧
    (∀ (s e₁ e₂ : Nat),
      pick_fortune fortunes (some s) e₁ = pick_fortune fortunes (some s) e₂) := by
  constructor
  · unfold pick_fortune
    rw [Option.map_eq_none']
    exact choose_eq_none_iff fortunes _
  · intro s e₁ e₂
    rfl

theorem pick_fortune_none_iff_empty_and_seeded_deterministic_witness :
    pick_fortune [{ source := ['f'], text := ['t'] }] (some 1) 3 =
      pick_fortune [{ source := ['f'], text := ['t'] }] (some 1) 7 ∧
    (pick_fortune [] (some 1) 0 = none ↔ ([] : List Fortune) = []) :=
  ⟨(pick_fortune_none_iff_empty_and_seeded_deterministic
      [{ source := ['f'], text := ['t'] }] (some 1) 3).2 1 3 7,
   (pick_fortune_none_iff_empty_and_seeded_deterministic [] (some 1) 0).1⟩

/-! Helper lemmas about path ordering, dedup and collection. -/

theorem pathLe_trans : ∀ (a b c : Str), pathLe a b → pathLe b c → pathLe a c := by
  intro a b c hab hbc
  exact decide_eq_true (le_trans (of_decide_eq_true hab) (of_decide_eq_true hbc))

theorem pathLe_total : ∀ (a b : Str), pathLe a b || pathLe b a := by
  intro a b
  rcases le_total (pathKey a) (pathKey b) with h | h
  · simp [pathLe, h]
  · simp [pathLe, h]

theorem pathKey_eq_of_le_le (a b : Str) (hab : pathLe a b = true) (hba : pathLe b a = true) :
    pathKey a = pathKey b :=
  le_antisymm (of_decide_eq_true hab) (of_decide_eq_true hba)

theorem mem_dedupAdjTail_subset (x : Str) :
    ∀ (l : List Str) (prev : Str), x ∈ dedupAdjTail prev l → x ∈ l := by
  intro l
  induction l with
  | nil => intro prev h; cases h
  | cons b rest ih =>
    intro prev h
    unfold dedupAdjTail at h
    by_cases hk : pathKey prev = pathKey b
    · rw [if_pos hk] at h
      exact List.mem_cons_of_mem b (ih prev h)
    · rw [if_neg hk] at h
      rcases List.mem_cons.mp h with h1 | h1
      · exact h1 ▸ List.mem_cons_self b rest
      · exact List.mem_cons_of_mem b (ih b h1)

theorem mem_dedupAdj_subset (l : List Str) (x : Str) (h : x ∈ dedupAdj l) : x ∈ l := by
  cases l with
  | nil => cases h
  | cons a rest =>
    rcases List.mem_cons.mp h with h1 | h1
    · exact h1 ▸ List.mem_cons_self a rest
    · exact List.mem_cons_of_mem a (mem_dedupAdjTail_subset x rest a h1)

theorem dedupAdjTail_key_complete (x : Str) :
    ∀ (l : List Str) (prev : Str), x ∈ l →
      pathKey x = pathKey prev ∨ ∃ y ∈ dedupAdjTail prev l, pathKey y = pathKey x := by
  intro l
  induction l with
  | nil => intro prev h; cases h
  | cons b rest ih =>
    intro prev h
    unfold dedupAdjTail
    by_cases hk : pathKey prev = pathKey b
    · rw [if_pos hk]
      rcases List.mem_cons.mp h with h1 | h1
      · exact .inl (by rw [h1]; exact hk.symm)
      · exact ih prev h1
    · rw [if_neg hk]
      rcases List.mem_cons.mp h with h1 | h1
      · exact .inr ⟨b, List.mem_cons_self b _, by rw [h1]⟩
      · rcases ih b h1 with h2 | ⟨y, hy, hky⟩
        · exact .inr ⟨b, List.mem_cons_self b _, h2.symm⟩
        · exact .inr ⟨y, List.mem_cons_of_mem b hy, hky⟩

theorem dedupAdj_key_complete (l : List Str) (x : Str) (h : x ∈ l) :
    ∃ y ∈ dedupAdj l, pathKey y = pathKey x := by
  cases l with
  | nil => cases h
  | cons a rest =>
    rcases List.mem_cons.mp h with h1 | h1
    · exact ⟨a, List.mem_cons_self a _, by rw [h1]⟩
    · rcases dedupAdjTail_key_complete x rest a h1 with h2 | ⟨y, hy, hky⟩
      · exact ⟨a, List.mem_cons_self a _, h2.symm⟩
      · exact ⟨y, List.mem_cons_of_mem a hy, hky⟩

theorem dedupAdjTail_pairwise :
    ∀ (l : List Str) (prev : Str),
      (∀ x ∈ l, pathLe prev x = true) →
      l.Pairwise (fun a b => pathLe a b = true) →
      (dedupAdjTail prev l).Pairwise
        (fun a b => pathLe a b = true ∧ pathKey a ≠ pathKey b) ∧
      (∀ y ∈ dedupAdjTail prev l, pathLe prev y = true ∧ pathKey prev ≠ pathKey y) := by
  intro l
  induction l with
  | nil =>
    intro prev _ _
    exact ⟨List.Pairwise.nil, fun y hy => absurd hy (List.not_mem_nil y)⟩
  | cons b rest ih =>
    intro prev hhead hp
    unfold dedupAdjTail
    by_cases hk : pathKey prev = pathKey b
    · rw [if_pos hk]
      exact ih prev (fun x hx => hhead x (List.mem_cons_of_mem b hx)) hp.of_cons
    · rw [if_neg hk]
      have hbt := ih b (fun x hx => List.rel_of_pairwise_cons hp hx) hp.of_cons
      have hpb : pathLe prev b = true := hhead b (List.mem_cons_self b rest)
      have hprevlt : pathKey prev < pathKey b :=
        lt_of_le_of_ne (of_decide_eq_true hpb) hk
      constructor
      · exact List.pairwise_cons.mpr ⟨fun y hy => hbt.2 y hy, hbt.1⟩
      · intro y hy
        rcases List.mem_cons.mp hy with h1 | h1
        · exact ⟨by rw [h1]; exact hpb, by rw [h1]; exact hk⟩
        · obtain ⟨hby, hkby⟩ := hbt.2 y h1
          have hblt : pathKey b < pathKey y :=
            lt_of_le_of_ne (of_decide_eq_true hby) hkby
          have hlt : pathKey prev < pathKey y := lt_trans hprevlt hblt
          exact ⟨decide_eq_true (le_of_lt hlt), ne_of_lt hlt⟩

theorem dedupAdj_pairwise (l : List Str)
    (h : l.Pairwise (fun a b => pathLe a b = true)) :
    (dedupAdj l).Pairwise (fun a b => pathLe a b = true ∧ pathKey a ≠ pathKey b) := by
  cases l with
  | nil => exact List.Pairwise.nil
  | cons a rest =>
    have ht := dedupAdjTail_pairwise rest a
      (fun x hx => List.rel_of_pairwise_cons h hx) h.of_cons
    exact List.pairwise_cons.mpr ⟨ht.2, ht.1⟩

theorem collectOne_ok_of_metadata (fs : FS) (p : Str) (u : Unit)
    (hm : fs.metadata p = .ok u) : ∃ lp, collectOne fs p = .ok lp := by
  unfold collectOne
  rw [hm]
  by_cases hf : fs.isFile p = true
  · rw [if_pos hf]
    exact ⟨_, rfl⟩
  · rw [if_neg hf]
    exact ⟨_, rfl⟩

theorem collectFiles_ok_forall (fs : FS) :
    ∀ (paths l : List Str), collectFiles fs paths = .ok l →
      ∀ q ∈ paths, ∃ lq, collectOne fs q = .ok lq := by
  intro paths
  induction paths with
  | nil => intro l _ q hq; cases hq
  | cons p ps ih =>
    intro l h q hq
    unfold collectFiles at h
    cases hc : collectOne fs p with
    | error e => rw [hc] at h; cases h
    | ok lp =>
      rw [hc] at h
      cases hcs : collectFiles fs ps with
      | error e => rw [hcs] at h; cases h
      | ok ls =>
        rcases List.mem_cons.mp hq with h1 | h1
        · subst h1; exact ⟨lp, hc⟩
        · exact ih ls hcs q h1

theorem mem_collectFiles (fs : FS) :
    ∀ (paths l : List Str), collectFiles fs paths = .ok l →
      ∀ x, x ∈ l ↔ ∃ q, q ∈ paths ∧ ∃ lq, collectOne fs q = .ok lq ∧ x ∈ lq := by
  intro paths
  induction paths with
  | nil =>
    intro l h x
    unfold collectFiles at h
    injection h with h2
    subst h2
    simp
  | cons p ps ih =>
    intro l h x
    unfold collectFiles at h
    cases hc : collectOne fs p with
    | error e => rw [hc] at h; cases h
    | ok lp =>
      rw [hc] at h
      cases hcs : collectFiles fs ps with
      | error e => rw [hcs] at h; cases h
      | ok ls =>
        rw [hcs] at h
        injection h with h2
        subst h2
        constructor
        · intro hx
          rcases List.mem_append.mp hx with h1 | h1
          · exact ⟨p, List.mem_cons_self p ps, lp, hc, h1⟩
          · obtain ⟨q, hq, lq, hlq, hxq⟩ := (ih ls hcs x).mp h1
            exact ⟨q, List.mem_cons_of_mem _ hq, lq, hlq, hxq⟩
        · rintro ⟨q, hq, lq, hlq, hxq⟩
          rcases List.mem_cons.mp hq with h1 | h1
          · subst h1
            rw [hc] at hlq
            injection hlq with h3
            subst h3
            exact List.mem_append.mpr (.inl hxq)
          · exact List.mem_append.mpr (.inr ((ih ls hcs x).mpr ⟨q, h1, lq, hlq, hxq⟩))

theorem mem_collectOne (fs : FS) (q : Str) (lq : List Str)
    (h : collectOne fs q = .ok lq) (x : Str) :
    x ∈ lq ↔ keepExt x = true ∧
      ((fs.isFile q = true ∧ x = q) ∨
       (fs.isFile q = false ∧ x ∈ walkOk fs q ∧ fs.isFile x = true)) := by
  unfold collectOne at h
  cases hm : fs.metadata q with
  | error e => rw [hm] at h; cases h
  | ok u =>
    rw [hm] at h
    by_cases hf : fs.isFile q = true
    · rw [if_pos hf] at h
      injection h with h2
      subst h2
      constructor
      · intro hx
        by_cases hk : keepExt q = true
        · rw [if_pos hk] at hx
          have hxq : x = q := List.mem_singleton.mp hx
          subst hxq
          exact ⟨hk, .inl ⟨hf, rfl⟩⟩
        · rw [if_neg hk] at hx
          cases hx
      · rintro ⟨hkx, ⟨_, rfl⟩ | ⟨hff, _, _⟩⟩
        · rw [if_pos hkx]
          exact List.mem_singleton.mpr rfl
        · rw [hf] at hff
          cases hff
    · rw [if_neg hf] at h
      injection h with h2
      subst h2
      have hf0 : fs.isFile q = false := Bool.not_eq_true _ |>.mp hf
      constructor
      · intro hx
        have h1 := List.mem_filter.mp hx
        have h2 := List.mem_filter.mp h1.1
        exact ⟨h1.2, .inr ⟨hf0, h2.1, h2.2⟩⟩
      · rintro ⟨hkx, ⟨hft, rfl⟩ | ⟨_, hw, hfx⟩⟩
        · rw [hft] at hf0
          cases hf0
        · exact List.mem_filter.mpr ⟨List.mem_filter.mpr ⟨hw, hfx⟩, hkx⟩

theorem find_files_ok_elim (fs : FS) (paths files : List Str)
    (h : find_files fs paths = .ok files) :
    ∃ l, collectFiles fs paths = .ok l ∧ files = dedupAdj (l.mergeSort pathLe) := by
  unfold find_files at h
  cases hc : collectFiles fs paths with
  | error e =>
    rw [hc] at h
    simp [Except.map] at h
  | ok l =>
    rw [hc] at h
    simp only [Except.map] at h
    injection h with h2
    exact ⟨l, rfl, h2.symm⟩

theorem mem_find_files_sound (fs : FS) (paths files : List Str)
    (h : find_files fs paths = .ok files) (x : Str) (hx : x ∈ files) :
    ∃ q, q ∈ paths ∧ ∃ lq, collectOne fs q = .ok lq ∧ x ∈ lq := by
  obtain ⟨l, hc, rfl⟩ := find_files_ok_elim fs paths files h
  have hxl : x ∈ l := List.mem_mergeSort.mp (mem_dedupAdj_subset _ x hx)
  exact (mem_collectFiles fs paths l hc x).mp hxl

theorem mem_find_files_complete (fs : FS) (paths files : List Str)
    (h : find_files fs paths = .ok files) (x : Str)
    (hx : ∃ q, q ∈ paths ∧ ∃ lq, collectOne fs q = .ok lq ∧ x ∈ lq) :
    ∃ y ∈ files, pathKey y = pathKey x := by
  obtain ⟨l, hc, rfl⟩ := find_files_ok_elim fs paths files h
  have hxl : x ∈ l := (mem_collectFiles fs paths l hc x).mpr hx
  exact dedupAdj_key_complete _ x (List.mem_mergeSort.mpr hxl)

theorem filterMap_filter_ok (l : List (Except Str Str)) :
    (l.filter (fun e => match e with | .ok _ => true | .error _ => false)).filterMap
      (fun e => match e with | .ok q => some q | .error _ => none) =
    l.filterMap (fun e => match e with | .ok q => some q | .error _ => none) := by
  induction l with
  | nil => rfl
  | cons entry rest ih =>
    cases entry with
    | ok v => simp [List.filter_cons, List.filterMap_cons, ih]
    | error e => simp [List.filter_cons, List.filterMap_cons, ih]

theorem walkOk_stripWalkErrs (fs : FS) (p : Str) :
    walkOk (stripWalkErrs fs) p = walkOk fs p := by
  unfold walkOk stripWalkErrs
  exact filterMap_filter_ok (fs.walk p)

theorem collectOne_stripWalkErrs (fs : FS) (p : Str) :
    collectOne (stripWalkErrs fs) p = collectOne fs p := by
  unfold collectOne
  rw [walkOk_stripWalkErrs]
  rfl

theorem collectFiles_stripWalkErrs (fs : FS) (paths : List Str) :
    collectFiles (stripWalkErrs fs) paths = collectFiles fs paths := by
  induction paths with
  | nil => rfl
  | cons p ps ih =>
    unfold collectFiles
    rw [collectOne_stripWalkErrs, ih]

theorem collectFiles_error_of_metadata (fs : FS) :
    ∀ paths : List Str, (∃ q, q ∈ paths ∧ ∃ e, fs.metadata q = .error e) →
      ∃ q e, q ∈ paths ∧ fs.metadata q = .error e ∧
        collectFiles fs paths = .error (q ++ colonSpace ++ e) := by
  intro paths
  induction paths with
  | nil => rintro ⟨q, hq, _⟩; cases hq
  | cons p ps ih =>
    rintro ⟨q, hq, e, he⟩
    cases hm : fs.metadata p with
    | error ep =>
      refine ⟨p, ep, List.mem_cons_self p ps, hm, ?_⟩
      unfold collectFiles collectOne
      rw [hm]
    | ok u =>
      have hq2 : q ∈ ps := by
        rcases List.mem_cons.mp hq with h1 | h1
        · subst h1; rw [hm] at he; cases he
        · exact h1
      obtain ⟨q3, e3, hq3, he3, hcf⟩ := ih ⟨q, hq2, e, he⟩
      refine ⟨q3, e3, List.mem_cons_of_mem _ hq3, he3, ?_⟩
      obtain ⟨lp, hlp⟩ := collectOne_ok_of_metadata fs p u hm
      unfold collectFiles
      rw [hlp, hcf]

/-! Claim theorems about path resolution. -/

/-- Claim C5: whenever resolution succeeds, the resolved list is sorted by
the path order the program sorts with (`Ord for Path`, component-wise) and
is free of duplicate entries even up to component-wise path equality — so
repeated or overlapping inputs (the same directory twice, or a directory
plus a file inside it) can never produce duplicate entries — and resolving
the same inputs again yields the identical list. -/
theorem find_files_sorted_dedup (fs : FS) (paths files : List Str)
    (h : find_files fs paths = .ok files) :
    files.Pairwise (fun a b => pathLe a b = true ∧ pathKey a ≠ pathKey b) ∧
    files.Nodup ∧
    (∀ files2, find_files fs paths = .ok files2 → files2 = files) := by
  obtain ⟨l, hc, rfl⟩ := find_files_ok_elim fs paths files h
  have hsorted : (l.mergeSort pathLe).Pairwise (fun a b => pathLe a b = true) :=
    List.sorted_mergeSort pathLe_trans pathLe_total l
  have hp := dedupAdj_pairwise _ hsorted
  refine ⟨hp, hp.imp (fun hx heq => hx.2 (congrArg pathKey heq)), ?_⟩
  intro files2 h2
  rw [h] at h2
  injection h2 with h3
  exact h3.symm

theorem find_files_sorted_dedup_witness :
    find_files fsEx [['a']] = .ok [['a']] ∧ ([['a']] : List Str).Nodup := by
  have hff : find_files fsEx [['a']] = .ok [['a']] := by
    have hc : collectFiles fsEx [['a']] = .ok [['a']] := by rfl
    unfold find_files
    rw [hc]
    simp only [Except.map, List.mergeSort_singleton]
    rfl
  exact ⟨hff, (find_files_sorted_dedup fsEx [['a']] [['a']] hff).2.1⟩

/-- Claim C6: no path whose extension is exactly `dat` ever appears in the
resolved list: every resolved path passes the extension filter and was
reachable (named directly as a file, or discovered as a file by the walk
of a named directory); conversely every reachable path that passes the
filter is represented in the list up to component-wise path equality
(`PartialEq for PathBuf`: two spellings of one path, such as `a//b` and
`a/b`, dedup to a single entry), and exactly — membership iff
filter-and-reachable — whenever reachable paths are spelled uniquely.  The
filter keeps a path iff its extension is not exactly `dat`: concretely
`x.dat` is always excluded, while `x.dat.txt` and the extensionless `x`
are kept. -/
theorem find_files_extension_filter (fs : FS) (paths files : List Str)
    (h : find_files fs paths = .ok files) :
    (∀ x, x ∈ files → keepExt x = true ∧ reachedFile fs paths x) ∧
    (∀ x, keepExt x = true → reachedFile fs paths x →
      ∃ y ∈ files, pathKey y = pathKey x) ∧
    ((∀ x y, keepExt x = true → reachedFile fs paths x →
        keepExt y = true → reachedFile fs paths y →
        pathKey x = pathKey y → x = y) →
      ∀ x, x ∈ files ↔ (keepExt x = true ∧ reachedFile fs paths x)) ∧
    (∀ x, keepExt x = true ↔ extensionOf x ≠ some datExt) ∧
    keepExt ['x', '.', 'd', 'a', 't'] = false ∧
    keepExt ['x', '.', 'd', 'a', 't', '.', 't', 'x', 't'] = true ∧
    keepExt ['x'] = true := by
  have hsound : ∀ x, x ∈ files → keepExt x = true ∧ reachedFile fs paths x := by
    intro x hx
    obtain ⟨q, hq, lq, hlq, hxq⟩ := mem_find_files_sound fs paths files h x hx
    have hchar := (mem_collectOne fs q lq hlq x).mp hxq
    exact ⟨hchar.1, q, hq, hchar.2⟩
  have hcomplete : ∀ x, keepExt x = true → reachedFile fs paths x →
      ∃ y ∈ files, pathKey y = pathKey x := by
    intro x hk hr
    obtain ⟨q, hq, hbr⟩ := hr
    obtain ⟨l, hc, _⟩ := find_files_ok_elim fs paths files h
    obtain ⟨lq, hlq⟩ := collectFiles_ok_forall fs paths l hc q hq
    exact mem_find_files_complete fs paths files h x
      ⟨q, hq, lq, hlq, (mem_collectOne fs q lq hlq x).mpr ⟨hk, hbr⟩⟩
  refine ⟨hsound, hcomplete, ?_, ?_, by decide, by decide, by decide⟩
  · intro hinj x
    constructor
    · exact fun hx => hsound x hx
    · rintro ⟨hk, hr⟩
      obtain ⟨y, hyf, hkey⟩ := hcomplete x hk hr
      obtain ⟨hky, hry⟩ := hsound y hyf
      have hyx : y = x := hinj y x hky hry hk hr hkey
      exact hyx ▸ hyf
  · intro x
    unfold keepExt
    cases he : extensionOf x with
    | none => simp
    | some e => simp

theorem find_files_extension_filter_witness :
    find_files fsEx [['d']] = .ok [['d', '/', 'f']] ∧
    (keepExt ['d', '/', 'f'] = true ∧ reachedFile fsEx [['d']] ['d', '/', 'f']) := by
  have hff : find_files fsEx [['d']] = .ok [['d', '/', 'f']] := by
    have hc : collectFiles fsEx [['d']] = .ok [['d', '/', 'f']] := by rfl
    unfold find_files
    rw [hc]
    simp only [Except.map, List.mergeSort_singleton]
    rfl
  exact ⟨hff, (find_files_extension_filter fsEx [['d']] [['d', '/', 'f']] hff).1 _
    (List.mem_singleton.mpr rfl)⟩

/-- Claim C7: if any top-level input path fails the metadata query, the whole
resolution fails with an error naming a failing path and its cause (no
partial result); whereas removing every error entry from the directory
walks changes nothing — walk errors are silently skipped. -/
theorem find_files_error_behavior (fs : FS) (paths : List Str) :
    ((∃ q, q ∈ paths ∧ ∃ e, fs.metadata q = .error e) →
      ∃ q e, q ∈ paths ∧ fs.metadata q = .error e ∧
        find_files fs paths = .error (q ++ colonSpace ++ e)) ∧
    find_files (stripWalkErrs fs) paths = find_files fs paths := by
  constructor
  · intro hex
    obtain ⟨q, e, hq, he, hcf⟩ := collectFiles_error_of_metadata fs paths hex
    refine ⟨q, e, hq, he, ?_⟩
    unfold find_files
    rw [hcf]
    rfl
  · unfold find_files
    rw [collectFiles_stripWalkErrs]

theorem find_files_error_behavior_witness :
    (∃ q, q ∈ [['m'], ['a']] ∧ ∃ e, fsEx.metadata q = .error e) ∧
    (∃ q e, q ∈ [['m'], ['a']] ∧ fsEx.metadata q = .error e ∧
      find_files fsEx [['m'], ['a']] = .error (q ++ colonSpace ++ e)) := by
  have hex : ∃ q, q ∈ [['m'], ['a']] ∧ ∃ e, fsEx.metadata q = .error e := by
    refine ⟨['m'], List.mem_cons_self _ _, ['n', 'o'], ?_⟩
    rfl
  exact ⟨hex, (find_files_error_behavior fsEx [['m'], ['a']]).1 hex⟩

/-- Claim C10: when every regular file has a file-name component (as on a real
filesystem), every path in a successfully resolved list has one too, so
the `file_name().unwrap()` of corpus loading can never panic on resolved
paths: loading composed after resolution yields either a corpus or a
declared filesystem error, never the panic. -/
theorem resolved_paths_have_file_names (fs : FS) (paths files : List Str)
    (hwf : ∀ p, fs.isFile p = true → (fileNameOf p).isSome = true)
    (h : find_files fs paths = .ok files) :
    (∀ p ∈ files, (fileNameOf p).isSome = true) ∧
    ((∃ fortunes, read_fortunes fs files = .ok fortunes) ∨
     (∃ m, read_fortunes fs files = .error (.fsError m))) := by
  have hmem : ∀ p ∈ files, fs.isFile p = true := by
    intro p hp
    obtain ⟨q, _, lq, hlq, hx⟩ := mem_find_files_sound fs paths files h p hp
    rcases ((mem_collectOne fs q lq hlq p).mp hx).2 with ⟨hf, rfl⟩ | ⟨_, _, hf⟩
    · exact hf
    · exact hf
  have hnames : ∀ p ∈ files, (fileNameOf p).isSome = true :=
    fun p hp => hwf p (hmem p hp)
  refine ⟨hnames, ?_⟩
  clear hmem h hwf
  induction files with
  | nil => exact .inl ⟨[], rfl⟩
  | cons p ps ih =>
    have hs : (fileNameOf p).isSome = true := hnames p (List.mem_cons_self p ps)
    obtain ⟨src, hsrc⟩ := Option.isSome_iff_exists.mp hs
    have heq : read_fortunes fs (p :: ps) =
        match fileNameOf p with
        | none => .error .panicNoFileName
        | some src =>
          match fs.readFile p with
          | .error e => .error (.fsError (src ++ colonSpace ++ e))
          | .ok content =>
            match read_fortunes fs ps with
            | .error e => .error e
            | .ok rest => .ok (read_fortunes_content src content ++ rest) := rfl
    rw [heq, hsrc]
    cases hr : fs.readFile p with
    | error e => exact .inr ⟨src ++ colonSpace ++ e, rfl⟩
    | ok content =>
      rcases ih (fun q hq => hnames q (List.mem_cons_of_mem _ hq)) with ⟨fo, hfo⟩ | ⟨m, hm⟩
      · rw [hfo]
        exact .inl ⟨read_fortunes_content src content ++ fo, rfl⟩
      · rw [hm]
        exact .inr ⟨m, rfl⟩

theorem resolved_paths_have_file_names_witness :
    (∀ p, fsEx.isFile p = true → (fileNameOf p).isSome = true) ∧
    find_files fsEx [['a']] = .ok [['a']] ∧
    ((∃ fortunes, read_fortunes fsEx [['a']] = .ok fortunes) ∨
     (∃ m, read_fortunes fsEx [['a']] = .error (.fsError m))) := by
  have hwf : ∀ p, fsEx.isFile p = true → (fileNameOf p).isSome = true := by
    intro p hp
    rcases of_decide_eq_true hp with h1 | h1
    · subst h1; rfl
    · subst h1; rfl
  have hff : find_files fsEx [['a']] = .ok [['a']] := by
    have hc : collectFiles fsEx [['a']] = .ok [['a']] := by rfl
    unfold find_files
    rw [hc]
    simp only [Except.map, List.mergeSort_singleton]
    rfl
  exact ⟨hwf, hff, (resolved_paths_have_file_names fsEx [['a']] [['a']] hwf hff).2⟩

end Fortuner
